import Mathlib

/-!
Verification of the SONAR submarine sonar-system core against its
natural-language specification.  The Python modules
`sonar_simulator/beamforming.py`, `sonar_simulator/processing.py` and
`sonar_simulator/tracker.py` are shallowly embedded below: NumPy float
arrays become lists over `ℝ` / `ℂ`, NumPy linear algebra becomes
Mathlib matrices, and Python exceptions / NumPy shape errors become
`Option` results.
-/

set_option maxHeartbeats 1000000
set_option linter.unusedVariables false

namespace Sonar

open Real

/-- `np.deg2rad`. -/
noncomputable def deg2rad (d : ℝ) : ℝ := d * (Real.pi / 180)

/-- The unit direction used in `steering_vector`:
`[cos(el)*cos(az), cos(el)*sin(az), sin(el)]`. -/
noncomputable def sphericalDirection (az el : ℝ) : ℝ × ℝ × ℝ :=
  (Real.cos el * Real.cos az, Real.cos el * Real.sin az, Real.sin el)

/-- Dot product of two 3-vectors, as computed by `positions @ direction`. -/
def dot3 (p q : ℝ × ℝ × ℝ) : ℝ :=
  p.1 * q.1 + p.2.1 * q.2.1 + p.2.2 * q.2.2

/-- `steering_vector(positions, az_deg, el_deg, freq, c)` from
`beamforming.py`: per element `exp(-1j * k * (position @ direction))`
with `k = 2*pi*freq/c`. -/
noncomputable def steering_vector (positions : List (ℝ × ℝ × ℝ))
    (az_deg el_deg freq c : ℝ) : List ℂ :=
  let az := deg2rad az_deg
  let el := deg2rad el_deg
  let k := 2 * Real.pi * freq / c
  positions.map (fun p =>
    Complex.exp (-Complex.I * (k : ℂ) * ((dot3 p (sphericalDirection az el) : ℝ) : ℂ)))

/-- `np.mean` of a list of reals (mean of the empty list is the junk value
`0/0 = 0` in this real-valued model; the code never takes it on an empty
window). -/
noncomputable def mean (xs : List ℝ) : ℝ := xs.sum / xs.length

/-- The noise window of `simple_cfar` at index `i`: the concatenation of the
two bound-clipped slices `data[max(0,i-guard-noise_win):max(0,i-guard)]` and
`data[min(N,i+guard+1):min(N,i+guard+1+noise_win)]` (Python slice `[a:b]` is
`drop a` then `take (b - a)`; truncated `ℕ` subtraction models the
`max(0, _)` clipping). -/
def cfarNoise (data : List ℝ) (guard noise_win i : ℕ) : List ℝ :=
  let N := data.length
  ((data.drop (i - guard - noise_win)).take ((i - guard) - (i - guard - noise_win))) ++
    ((data.drop (min N (i + guard + 1))).take
      (min N (i + guard + 1 + noise_win) - min N (i + guard + 1)))

/-- `simple_cfar(data, guard, noise_win, rate)` from `processing.py`:
per index, noise level is the mean absolute value of the two windows,
the threshold is `noise_level * (1 + 3*sqrt(-log(rate)))`, indices with an
empty noise window are skipped (left `False`). -/
noncomputable def simple_cfar (data : List ℝ) (guard noise_win : ℕ) (rate : ℝ) :
    List Bool :=
  (List.range data.length).map (fun i =>
    let noise := cfarNoise data guard noise_win i
    if noise.length < 1 then false
    else decide (|data.getD i 0| >
      mean (noise.map (fun x => |x|)) * (1 + 3 * Real.sqrt (-Real.log rate))))

/-- Python `int()` on a real: truncation toward zero. -/
noncomputable def pyInt (x : ℝ) : ℤ := if 0 ≤ x then ⌊x⌋ else ⌈x⌉

/-- The frequency-bin index computed by `mvdr_beamform`:
`int(freq / data.shape[1]) if data.shape[1] > 0 else 0`. -/
noncomputable def mvdrBinIdx (freq : ℝ) (n : ℕ) : ℤ :=
  if 0 < n then pyInt (freq / n) else 0

/-- The column selected by the NumPy slice `X[:, b:b+1]` on an `N`-column
array: `none` when the slice is empty. -/
def sliceCol (b : ℤ) (N : ℕ) : Option ℕ :=
  if 0 ≤ b then (if b.toNat < N then some b.toNat else none)
  else if b = -1 then none
  else if 0 ≤ (N : ℤ) + b then some ((N : ℤ) + b).toNat else none

/-- One coefficient of `np.fft.fft` along a row:
`X[b] = sum_j row[j] * exp(-2*pi*i*b*j/N)`. -/
noncomputable def dftCoeff (row : List ℂ) (N b : ℕ) : ℂ :=
  ∑ j ∈ Finset.range N,
    row.getD j 0 * Complex.exp (-2 * Real.pi * Complex.I * b * j / N)

/-- The regularized single-bin spatial covariance of `mvdr_beamform`:
`R = snapshot @ snapshot.conj().T + reg * eye` with
`snapshot = X[:, bin_idx:bin_idx+1]` (the zero matrix when that slice is
empty). -/
noncomputable def mvdrR (data : List (List ℂ)) (freq reg : ℝ) :
    Matrix (Fin data.length) (Fin data.length) ℂ :=
  let N := (data.headD []).length
  fun i j =>
    (match sliceCol (mvdrBinIdx freq N) N with
     | some b =>
        dftCoeff (data.getD i []) N b * (starRingEnd ℂ) (dftCoeff (data.getD j []) N b)
     | none => 0) +
    (if i = j then (reg : ℂ) else 0)

/-- `delay_and_sum(data, positions, az_deg, el_deg, fs, freq, c)` from
`beamforming.py`: `sum(data * conj(sv[:, None]), axis=0) / data.shape[0]`.
NumPy broadcasting of `(m, N) * (k, 1)` succeeds exactly when
`m = k ∨ m = 1 ∨ k = 1` (a shape `ValueError`, i.e. `none`, otherwise). -/
noncomputable def delay_and_sum (data : List (List ℂ))
    (positions : List (ℝ × ℝ × ℝ)) (az_deg el_deg : ℝ) (fs : ℕ) (freq : ℝ)
    (c : ℝ) : Option (List ℂ) :=
  let m := data.length
  let k := positions.length
  let N := (data.headD []).length
  let sv := steering_vector positions az_deg el_deg freq c
  if m = k ∨ m = 1 ∨ k = 1 then
    some ((List.range N).map (fun j =>
      (∑ r ∈ Finset.range (max m k),
        (data.getD (if m = 1 then 0 else r) []).getD j 0 *
          (starRingEnd ℂ) (sv.getD (if k = 1 then 0 else r) 0)) / (m : ℂ)))
  else none

section

open scoped Classical

/-- `mvdr_beamform(data, positions, az_deg, el_deg, freq, reg)` from
`beamforming.py`: `w = inv(R) @ sv`, normalized by `sv.conj().T @ inv(R) @ sv`,
then `w.conj().T @ data`.  `none` models the NumPy failures: the matmul shape
error when element counts differ, the FFT error on a zero-length sample axis,
and `LinAlgError` when the regularized covariance is singular.  The steering
vector is built with the default `c = 1500` exactly as in the source. -/
noncomputable def mvdr_beamform (data : List (List ℂ))
    (positions : List (ℝ × ℝ × ℝ)) (az_deg el_deg freq reg : ℝ) :
    Option (List ℂ) :=
  let N := (data.headD []).length
  if data.length = positions.length ∧ 0 < N ∧ IsUnit (mvdrR data freq reg).det then
    let R := mvdrR data freq reg
    let sv : Fin data.length → ℂ := fun e =>
      (steering_vector positions az_deg el_deg freq 1500).getD e 0
    let w : Fin data.length → ℂ := R⁻¹.mulVec sv
    let denom : ℂ := ∑ e, (starRingEnd ℂ) (sv e) * (R⁻¹.mulVec sv) e
    some ((List.range N).map (fun j =>
      ∑ e, (starRingEnd ℂ) (w e / denom) * (data.getD e []).getD j 0))
  else none

end

/-- Modelled from the spec: the explicit frequency-to-bin mapping the spec
demands for the MVDR covariance — with frequency resolution `fs / n`, the
bin whose center frequency `b * (fs / n)` is nearest the target frequency is
`round(freq / (fs / n))`.  The reference `mvdr_beamform` takes no sample-rate
parameter, so this mapping is missing from the source. -/
noncomputable def specNearestBin (freq fs : ℝ) (n : ℕ) : ℤ :=
  round (freq / (fs / n))

/-- The `Track` dataclass of `tracker.py`: id, state `[x, y, vx, vy]`, and
covariance `P`. -/
structure Track where
  id : ℕ
  state : Fin 4 → ℝ
  P : Matrix (Fin 4) (Fin 4) ℝ

/-- `TargetTracker`: the insertion-ordered id → Track dictionary and the
next id (`max_tracks` is accepted and ignored by the source constructor). -/
structure TargetTracker where
  tracks : List (ℕ × Track)
  next_id : ℕ

/-- `TargetTracker.__init__`: no tracks, `next_id = 1`. -/
def TargetTracker.init : TargetTracker := ⟨[], 1⟩

/-- The constant-velocity transition matrix `F` of `TargetTracker.predict`. -/
def Fmat (dt : ℝ) : Matrix (Fin 4) (Fin 4) ℝ :=
  !![1, 0, dt, 0; 0, 1, 0, dt; 0, 0, 1, 0; 0, 0, 0, 1]

/-- `TargetTracker.predict(dt)`: per track `state = F @ state`,
`P = F @ P @ F.T + eye(4) * 0.1`. -/
noncomputable def TargetTracker.predict (t : TargetTracker) (dt : ℝ) :
    TargetTracker :=
  ⟨t.tracks.map (fun kt => (kt.1,
    { id := kt.2.id,
      state := (Fmat dt).mulVec kt.2.state,
      P := Fmat dt * kt.2.P * (Fmat dt).transpose +
        (0.1 : ℝ) • (1 : Matrix (Fin 4) (Fin 4) ℝ) })), t.next_id⟩

/-- `np.linalg.norm(tr.state[:2] - d[:2])`. -/
noncomputable def dist2 (s : Fin 4 → ℝ) (d : ℝ × ℝ) : ℝ :=
  Real.sqrt ((s 0 - d.1) ^ 2 + (s 1 - d.2) ^ 2)

/-- One iteration of the nearest-track loop of `TargetTracker.update`:
`best` is `none` while `best_dist` is still `inf`, and a strictly smaller
distance replaces the best candidate. -/
noncomputable def stepBest (d : ℝ × ℝ) :
    Option (ℕ × ℝ) → (ℕ × Track) → Option (ℕ × ℝ)
  | none, kt => some (kt.1, dist2 kt.2.state d)
  | some b, kt =>
      if dist2 kt.2.state d < b.2 then some (kt.1, dist2 kt.2.state d) else some b

/-- The nearest-track search of `TargetTracker.update` over the insertion
order of the dictionary. -/
noncomputable def findNearest (tracks : List (ℕ × Track)) (d : ℝ × ℝ) :
    Option (ℕ × ℝ) :=
  tracks.foldl (stepBest d) none

/-- The observation matrix `H` of `TargetTracker.update`. -/
def Hmat : Matrix (Fin 2) (Fin 4) ℝ := !![1, 0, 0, 0; 0, 1, 0, 0]

/-- The in-gate branch of `TargetTracker.update`:
`y = z - H @ state`, `S = H @ P @ H.T + eye(2)*10`,
`K = P @ H.T @ inv(S)`, `state = state + K @ y`, `P = (eye(4) - K @ H) @ P`. -/
noncomputable def kalmanCorrect (tr : Track) (d : ℝ × ℝ) : Track :=
  let z : Fin 2 → ℝ := ![d.1, d.2]
  let y : Fin 2 → ℝ := z - Hmat.mulVec tr.state
  let S : Matrix (Fin 2) (Fin 2) ℝ :=
    Hmat * tr.P * Hmat.transpose + (10 : ℝ) • (1 : Matrix (Fin 2) (Fin 2) ℝ)
  let K : Matrix (Fin 4) (Fin 2) ℝ := tr.P * Hmat.transpose * S⁻¹
  { id := tr.id,
    state := tr.state + K.mulVec y,
    P := ((1 : Matrix (Fin 4) (Fin 4) ℝ) - K * Hmat) * tr.P }

/-- `Track(self.next_id, np.array([d[0], d[1], 0.0, 0.0]), np.eye(4))`. -/
def newTrack (k : ℕ) (d : ℝ × ℝ) : Track := ⟨k, ![d.1, d.2, 0, 0], 1⟩

/-- Python dict assignment `tracks[k] = v`: overwrite in place when the key
exists, append otherwise. -/
def dictInsert (l : List (ℕ × Track)) (k : ℕ) (v : Track) : List (ℕ × Track) :=
  if k ∈ l.map Prod.fst then l.map (fun p => if p.1 = k then (k, v) else p)
  else l ++ [(k, v)]

/-- One detection of `TargetTracker.update`: create a track when the tracker
is empty, otherwise find the nearest track and either correct it (distance
strictly below 1000) or create a new track. -/
noncomputable def updateOne (t : TargetTracker) (d : ℝ × ℝ) : TargetTracker :=
  if t.tracks.isEmpty then
    ⟨dictInsert t.tracks t.next_id (newTrack t.next_id d), t.next_id + 1⟩
  else
    match findNearest t.tracks d with
    | none => ⟨dictInsert t.tracks t.next_id (newTrack t.next_id d), t.next_id + 1⟩
    | some b =>
      if b.2 < 1000 then
        ⟨t.tracks.map (fun p => if p.1 = b.1 then (p.1, kalmanCorrect p.2 d) else p),
          t.next_id⟩
      else
        ⟨dictInsert t.tracks t.next_id (newTrack t.next_id d), t.next_id + 1⟩

/-- `TargetTracker.update(detections)`: detections are processed
independently, in order. -/
noncomputable def TargetTracker.update (t : TargetTracker)
    (dets : List (ℝ × ℝ)) : TargetTracker :=
  dets.foldl updateOne t

/-- The tracker's public operations, for reasoning about arbitrary call
sequences. -/
inductive TrackerOp where
  | predictOp (dt : ℝ)
  | updateOp (dets : List (ℝ × ℝ))

/-- Apply one tracker operation. -/
noncomputable def applyOp (t : TargetTracker) : TrackerOp → TargetTracker
  | TrackerOp.predictOp dt => t.predict dt
  | TrackerOp.updateOp dets => t.update dets

/-- Apply a sequence of tracker operations. -/
noncomputable def runOps (t : TargetTracker) (ops : List TrackerOp) :
    TargetTracker :=
  ops.foldl applyOp t

/-- The ids currently held by the tracker, in insertion order. -/
def trackIds (t : TargetTracker) : List ℕ := t.tracks.map Prod.fst

/-- The tracker invariant: ids are strictly increasing in insertion order
and all lie below `next_id`. -/
def goodTracker (t : TargetTracker) : Prop :=
  List.Sorted (· < ·) (trackIds t) ∧ ∀ k ∈ trackIds t, k < t.next_id

/-- `SimpleClassifier` from `tracker.py`.  The scikit-learn `SVC` is an
external library, modelled as an opaque predictor function from feature
vectors to labels. -/
structure SimpleClassifier where
  model : List ℝ → String
  trained : Bool

/-- `np.array_split(xs, n)`: `len(xs) % n` sections of size
`len(xs) // n + 1` followed by sections of size `len(xs) // n`. -/
def arraySplit (xs : List ℝ) (n : ℕ) : List (List ℝ) :=
  let l := xs.length
  let small := l / n
  let extra := l % n
  (List.range n).map (fun i =>
    let start := if i < extra then i * (small + 1)
      else extra * (small + 1) + (i - extra) * small
    (xs.drop start).take (if i < extra then small + 1 else small))

/-- `SimpleClassifier.featurize`: the mean magnitude of each of the 8 bands
of `np.array_split(np.abs(spectrum), 8)`. -/
noncomputable def featurize (spectrum : List ℝ) : List ℝ :=
  (arraySplit (spectrum.map (fun x => |x|)) 8).map mean

/-- `SimpleClassifier.__init__`: untrained, with an opaque unfitted model
(the source never calls the model before training). -/
def SimpleClassifier.mkNew : SimpleClassifier := ⟨fun _ => "", false⟩

/-- `SimpleClassifier.train`: modelled from the spec insofar as the fit
itself is scikit-learn's — training installs an opaque fitted predictor and
sets the trained flag. -/
def SimpleClassifier.train (c : SimpleClassifier)
    (fitted : List ℝ → String) : SimpleClassifier :=
  ⟨fitted, true⟩

/-- `SimpleClassifier.predict`: the literal label `"unknown"` when
untrained, else the model's prediction on the feature vector. -/
noncomputable def SimpleClassifier.predict (c : SimpleClassifier)
    (spectrum : List ℝ) : String :=
  if c.trained = false then "unknown" else c.model (featurize spectrum)

end Sonar

namespace Sonar

/-- `List.getD` through `List.map`, at an index inside the list. -/
theorem getD_map_lt {α β : Type} (l : List α) (f : α → β) (i : ℕ) (b : β) (d : α)
    (h : i < l.length) : (l.map f).getD i b = f (l.getD i d) := by
  have hm : i < (l.map f).length := by simpa using h
  rw [List.getD_eq_getElem l d h, List.getD_eq_getElem (l.map f) b hm]
  simp

/-- C1: every component of `steering_vector` has unit magnitude, its phase is
`-(2*pi*freq/c)` times the dot product of the element position with the
spherical-to-Cartesian unit direction, and that direction is indeed a unit
vector. -/
theorem steering_vector_unit_magnitude (positions : List (ℝ × ℝ × ℝ))
    (az_deg el_deg freq c : ℝ) (i : ℕ) (h : i < positions.length) :
    Complex.abs ((steering_vector positions az_deg el_deg freq c).getD i 0) = 1 ∧
    (steering_vector positions az_deg el_deg freq c).getD i 0 =
      Complex.exp (((-(2 * Real.pi * freq / c) *
        dot3 (positions.getD i (0, 0, 0))
          (sphericalDirection (deg2rad az_deg) (deg2rad el_deg)) : ℝ) : ℂ) * Complex.I) ∧
    dot3 (sphericalDirection (deg2rad az_deg) (deg2rad el_deg))
      (sphericalDirection (deg2rad az_deg) (deg2rad el_deg)) = 1 := by
  have hcomp : (steering_vector positions az_deg el_deg freq c).getD i 0 =
      Complex.exp (-Complex.I * ((2 * Real.pi * freq / c : ℝ) : ℂ) *
        ((dot3 (positions.getD i (0, 0, 0))
          (sphericalDirection (deg2rad az_deg) (deg2rad el_deg)) : ℝ) : ℂ)) := by
    unfold steering_vector
    exact getD_map_lt positions _ i 0 (0, 0, 0) h
  have hphase : (steering_vector positions az_deg el_deg freq c).getD i 0 =
      Complex.exp (((-(2 * Real.pi * freq / c) *
        dot3 (positions.getD i (0, 0, 0))
          (sphericalDirection (deg2rad az_deg) (deg2rad el_deg)) : ℝ) : ℂ) * Complex.I) := by
    rw [hcomp]
    congr 1
    push_cast
    ring
  refine ⟨?_, hphase, ?_⟩
  · rw [hphase]
    exact Complex.abs_exp_ofReal_mul_I _
  · unfold dot3 sphericalDirection
    dsimp only
    have h1 := Real.sin_sq_add_cos_sq (deg2rad az_deg)
    have h2 := Real.sin_sq_add_cos_sq (deg2rad el_deg)
    nlinarith [h1, h2]

/-- C1 witness: the claim instantiated at a one-element array. -/
theorem steering_vector_unit_magnitude_witness :
    Complex.abs ((steering_vector [(0, 0, 0)] 0 0 0 1500).getD 0 0) = 1 ∧
    (steering_vector [(0, 0, 0)] 0 0 0 1500).getD 0 0 =
      Complex.exp (((-(2 * Real.pi * 0 / 1500) *
        dot3 (([(0, 0, 0)] : List (ℝ × ℝ × ℝ)).getD 0 (0, 0, 0))
          (sphericalDirection (deg2rad 0) (deg2rad 0)) : ℝ) : ℂ) * Complex.I) ∧
    dot3 (sphericalDirection (deg2rad 0) (deg2rad 0))
      (sphericalDirection (deg2rad 0) (deg2rad 0)) = 1 :=
  steering_vector_unit_magnitude [(0, 0, 0)] 0 0 0 1500 0 (by decide)

/-- C2: `simple_cfar` flags index `i` exactly when `|data[i]|` exceeds
`noise_level * (1 + 3*sqrt(-log(rate)))` over the clipped symmetric noise
windows, and an index whose combined noise window is empty is never
flagged. -/
theorem simple_cfar_flag_iff (data : List ℝ) (guard noise_win : ℕ) (rate : ℝ)
    (i : ℕ) (h : i < data.length) :
    ((simple_cfar data guard noise_win rate).getD i false = true ↔
      (cfarNoise data guard noise_win i ≠ [] ∧
        |data.getD i 0| >
          mean ((cfarNoise data guard noise_win i).map (fun x => |x|)) *
            (1 + 3 * Real.sqrt (-Real.log rate)))) ∧
    (cfarNoise data guard noise_win i = [] →
      (simple_cfar data guard noise_win rate).getD i false = false) := by
  have hr : i < (List.range data.length).length := by simpa using h
  have hri : (List.range data.length).getD i 0 = i := by
    rw [List.getD_eq_getElem _ _ hr]
    simp
  have hget : (simple_cfar data guard noise_win rate).getD i false =
      (if (cfarNoise data guard noise_win i).length < 1 then false
       else decide (|data.getD i 0| >
         mean ((cfarNoise data guard noise_win i).map (fun x => |x|)) *
           (1 + 3 * Real.sqrt (-Real.log rate)))) := by
    unfold simple_cfar
    rw [getD_map_lt (List.range data.length) _ i false 0 hr]
    rw [hri]
  constructor
  · rw [hget]
    split_ifs with hlen
    · have hnil : cfarNoise data guard noise_win i = [] :=
        List.length_eq_zero.mp (Nat.lt_one_iff.mp hlen)
      simp [hnil]
    · have hne : cfarNoise data guard noise_win i ≠ [] := by
        intro hnil
        exact hlen (by simp [hnil])
      simp [hne]
  · intro hnil
    rw [hget, if_pos (by simp [hnil])]

/-- C2 witness: on `[0, 10, 0]` with `guard = 0`, `noise_win = 1`, the middle
sample (pure signal over a zero-level noise window) is flagged. -/
theorem simple_cfar_flag_iff_witness :
    (simple_cfar [(0 : ℝ), 10, 0] 0 1 (1/2)).getD 1 false = true := by
  refine ((simple_cfar_flag_iff [(0 : ℝ), 10, 0] 0 1 (1/2) 1 (by decide)).1).mpr ?_
  have hnoise : cfarNoise [(0 : ℝ), 10, 0] 0 1 1 = [0, 0] := by
    simp [cfarNoise]
  refine ⟨by simp [hnoise], ?_⟩
  rw [hnoise]
  have hmean : mean (([(0 : ℝ), 0]).map (fun x => |x|)) = 0 := by
    simp [mean]
  rw [hmean, zero_mul]
  norm_num

/-- C4 (code bug): `simple_cfar` performs no validation of the false-alarm
rate: at `rate = 2`, outside `(0, 1)`, it still returns a detection mask
(in this real-valued model `sqrt(-log 2) = 0`, so the threshold degenerates
to the noise level) instead of failing with `InvalidProbability`. -/
theorem simple_cfar_invalid_rate_mask :
    simple_cfar [(2 : ℝ), 0] 0 1 2 = [true, false] := by
  have hsqrt : Real.sqrt (-Real.log 2) = 0 := by
    rw [Real.sqrt_eq_zero']
    simpa using Real.log_nonneg (by norm_num)
  have h2 : List.range 2 = [0, 1] := by decide
  unfold simple_cfar
  rw [show ([(2 : ℝ), 0] : List ℝ).length = 2 from rfl, h2]
  have hn0 : cfarNoise [(2 : ℝ), 0] 0 1 0 = [0] := by simp [cfarNoise]
  have hn1 : cfarNoise [(2 : ℝ), 0] 0 1 1 = [2] := by simp [cfarNoise]
  simp only [List.map_cons, List.map_nil, hn0, hn1]
  norm_num [mean, hsqrt]

/-- C3 (amended): `mvdr_beamform` fails (`none`) whenever the snapshot and
geometry element counts differ; `delay_and_sum` fails only when they differ
and neither count is 1 (NumPy silently broadcasts a count of 1); when the
counts agree both return a time series of the working signal's sample length,
`mvdr_beamform` additionally requiring a nonempty sample axis and an
invertible regularized covariance. -/
theorem beamformers_dimension_contract (data : List (List ℂ))
    (positions : List (ℝ × ℝ × ℝ)) (az_deg el_deg : ℝ) (fs : ℕ) (freq c reg : ℝ) :
    (data.length = positions.length →
      (∃ ts, delay_and_sum data positions az_deg el_deg fs freq c = some ts ∧
        ts.length = (data.headD []).length) ∧
      (0 < (data.headD []).length → IsUnit (mvdrR data freq reg).det →
        ∃ ts, mvdr_beamform data positions az_deg el_deg freq reg = some ts ∧
          ts.length = (data.headD []).length)) ∧
    (data.length ≠ positions.length →
      mvdr_beamform data positions az_deg el_deg freq reg = none) ∧
    (data.length ≠ positions.length → data.length ≠ 1 → positions.length ≠ 1 →
      delay_and_sum data positions az_deg el_deg fs freq c = none) := by
  refine ⟨fun heq => ⟨?_, fun hN hdet => ?_⟩, fun hne => ?_, fun hne h1 h2 => ?_⟩
  · simp only [delay_and_sum]
    rw [if_pos (Or.inl heq)]
    exact ⟨_, rfl, by simp⟩
  · simp only [mvdr_beamform]
    rw [if_pos ⟨heq, hN, hdet⟩]
    exact ⟨_, rfl, by simp⟩
  · simp only [mvdr_beamform]
    rw [if_neg]
    intro hc
    exact hne hc.1
  · simp only [delay_and_sum]
    rw [if_neg]
    rintro (hc | hc | hc)
    · exact hne hc
    · exact h1 hc
    · exact h2 hc

/-- C3 counterexample: on mismatched counts (a 1-element snapshot against a
2-element geometry) `delay_and_sum` does not fail — NumPy broadcasting
silently accepts the shape and a time series is returned. -/
theorem delay_and_sum_broadcast_counterexample :
    ([[(1 : ℂ)]] : List (List ℂ)).length ≠
      ([((0 : ℝ), (0 : ℝ), (0 : ℝ)), ((1 : ℝ), (0 : ℝ), (0 : ℝ))] :
        List (ℝ × ℝ × ℝ)).length ∧
    (delay_and_sum [[(1 : ℂ)]]
      [((0 : ℝ), (0 : ℝ), (0 : ℝ)), ((1 : ℝ), (0 : ℝ), (0 : ℝ))]
      0 0 1 0 1500).isSome = true := by
  constructor
  · decide
  · simp [delay_and_sum]

/-- C3 witness: with matching one-element counts both beamformers return a
length-1 time series. -/
theorem beamformers_dimension_contract_witness :
    (∃ ts, delay_and_sum [[(1 : ℂ)]] [((0 : ℝ), (0 : ℝ), (0 : ℝ))] 0 0 1 0 1500 =
      some ts ∧ ts.length = ([[(1 : ℂ)]].headD []).length) ∧
    (∃ ts, mvdr_beamform [[(1 : ℂ)]] [((0 : ℝ), (0 : ℝ), (0 : ℝ))] 0 0 0 1 =
      some ts ∧ ts.length = ([[(1 : ℂ)]].headD []).length) := by
  have hdet : (mvdrR [[(1 : ℂ)]] 0 1).det = 2 := by
    refine (Matrix.det_fin_one _).trans ?_
    have hbin : mvdrBinIdx 0 1 = 0 := by
      simp [mvdrBinIdx, pyInt]
    have hslice : sliceCol 0 1 = some 0 := by decide
    have hcoef : dftCoeff [(1 : ℂ)] 1 0 = 1 := by
      simp [dftCoeff]
    simp [mvdrR, hbin, hslice, hcoef]
    norm_num
  have h := beamformers_dimension_contract [[(1 : ℂ)]]
    [((0 : ℝ), (0 : ℝ), (0 : ℝ))] 0 0 1 0 1500 1
  refine ⟨(h.1 rfl).1, (h.1 rfl).2 (by decide) ?_⟩
  rw [hdet]
  exact isUnit_iff_ne_zero.mpr two_ne_zero

/-- C5 (code bug): `mvdr_beamform` selects its covariance bin as
`int(freq / num_samples)`, independent of any sample rate, not as the bin
nearest the target frequency; at `freq = 2`, `N = 4`, `fs = 8` the code picks
bin 0 while the nearest bin (resolution `fs/N = 2` Hz) is bin 1.  Only the
fallback to bin 0 on a zero-length frequency axis matches the claim. -/
theorem mvdr_bin_index_divergence :
    mvdrBinIdx 2 4 = 0 ∧ specNearestBin 2 8 4 = 1 ∧
    (∀ freq : ℝ, mvdrBinIdx freq 0 = 0) := by
  refine ⟨?_, ?_, fun freq => by simp [mvdrBinIdx]⟩
  · have h24 : ((2 : ℝ) / (4 : ℕ)) = 1 / 2 := by norm_num
    simp only [mvdrBinIdx, pyInt, h24]
    rw [if_pos (by norm_num), if_pos (by norm_num)]
    rw [Int.floor_eq_iff]
    norm_num
  · unfold specNearestBin
    have h1 : ((2 : ℝ) / ((8 : ℝ) / ((4 : ℕ) : ℝ))) = 1 := by norm_num
    rw [h1, round_one]

/-- C6: a single detection on a trackless tracker creates exactly one track,
at the detection's position with zero velocity and identity covariance, and
advances `next_id`. -/
theorem tracker_first_detection_creates_track (t : TargetTracker) (d : ℝ × ℝ)
    (h : t.tracks = []) :
    (t.update [d]).tracks = [(t.next_id, ⟨t.next_id, ![d.1, d.2, 0, 0], 1⟩)] ∧
    (t.update [d]).next_id = t.next_id + 1 := by
  have hempty : t.tracks.isEmpty = true := by simp [h]
  constructor <;>
    simp [TargetTracker.update, updateOne, hempty, dictInsert, h, newTrack]

/-- C6 witness: the fresh tracker and the detection `(3, 4)`. -/
theorem tracker_first_detection_creates_track_witness :
    (TargetTracker.init.update [((3 : ℝ), (4 : ℝ))]).tracks =
      [(1, ⟨1, ![3, 4, 0, 0], 1⟩)] ∧
    (TargetTracker.init.update [((3 : ℝ), (4 : ℝ))]).next_id = 1 + 1 :=
  tracker_first_detection_creates_track TargetTracker.init ((3 : ℝ), (4 : ℝ)) rfl

/-- C9: `predict` returns the literal `"unknown"` whenever the classifier is
untrained — in particular on the freshly constructed classifier, before any
`train` call — and after `train` it returns the fitted model's prediction on
the feature vector of the spectrum. -/
theorem classifier_predict_contract :
    (∀ (m : List ℝ → String) (s : List ℝ),
      SimpleClassifier.predict ⟨m, false⟩ s = "unknown") ∧
    (∀ s : List ℝ, SimpleClassifier.mkNew.predict s = "unknown") ∧
    (∀ (c : SimpleClassifier) (f : List ℝ → String) (s : List ℝ),
      (c.train f).predict s = f (featurize s)) :=
  ⟨fun _ _ => rfl, fun _ => rfl, fun _ _ _ => rfl⟩

/-- One step of the nearest-track scan keeps an optimum so far. -/
theorem stepBest_some (d : ℝ × ℝ) (b : ℕ × ℝ) (kt : ℕ × Track) :
    ∃ r, stepBest d (some b) kt = some r ∧ r.2 ≤ b.2 ∧
      r.2 ≤ dist2 kt.2.state d ∧ (r = b ∨ r = (kt.1, dist2 kt.2.state d)) := by
  simp only [stepBest]
  split_ifs with hlt
  · exact ⟨_, rfl, le_of_lt hlt, le_refl _, Or.inr rfl⟩
  · exact ⟨b, rfl, le_refl _, not_lt.mp hlt, Or.inl rfl⟩

/-- The folded nearest-track scan returns a distance no larger than the
accumulator's and than every scanned track's, attained on the list or at the
accumulator. -/
theorem foldl_stepBest_spec (d : ℝ × ℝ) (l : List (ℕ × Track)) :
    ∀ b : ℕ × ℝ,
      ∃ r, l.foldl (stepBest d) (some b) = some r ∧ r.2 ≤ b.2 ∧
        (∀ kt ∈ l, r.2 ≤ dist2 kt.2.state d) ∧
        (r = b ∨ ∃ kt ∈ l, r = (kt.1, dist2 kt.2.state d)) := by
  induction l with
  | nil =>
    intro b
    exact ⟨b, rfl, le_refl _, by simp, Or.inl rfl⟩
  | cons kt l ih =>
    intro b
    obtain ⟨b1, hb1, hle, hled, hor⟩ := stepBest_some d b kt
    obtain ⟨r, hr, hrle, hrall, hror⟩ := ih b1
    refine ⟨r, ?_, le_trans hrle hle, ?_, ?_⟩
    · rw [List.foldl_cons, hb1]
      exact hr
    · intro kt2 hmem
      rcases List.mem_cons.mp hmem with h | h
      · rw [h]
        exact le_trans hrle hled
      · exact hrall kt2 h
    · rcases hror with rfl | ⟨kt2, hkt2, heq⟩
      · rcases hor with h2 | h2
        · exact Or.inl h2
        · exact Or.inr ⟨kt, List.mem_cons_self _ _, h2⟩
      · exact Or.inr ⟨kt2, List.mem_cons_of_mem _ hkt2, heq⟩

/-- `findNearest` on a nonempty list returns the minimum distance together
with the id of a track attaining it. -/
theorem findNearest_spec (tracks : List (ℕ × Track)) (d : ℝ × ℝ)
    (bid : ℕ) (bdist : ℝ) (h : findNearest tracks d = some (bid, bdist)) :
    (∀ kt ∈ tracks, bdist ≤ dist2 kt.2.state d) ∧
    (∃ kt ∈ tracks, kt.1 = bid ∧ dist2 kt.2.state d = bdist) := by
  cases tracks with
  | nil => simp [findNearest] at h
  | cons kt l =>
    obtain ⟨r, hr, hrle, hrall, hror⟩ :=
      foldl_stepBest_spec d l (kt.1, dist2 kt.2.state d)
    have hstep : stepBest d none kt = some (kt.1, dist2 kt.2.state d) := rfl
    have hfold : findNearest (kt :: l) d = l.foldl (stepBest d)
        (some (kt.1, dist2 kt.2.state d)) := by
      unfold findNearest
      rw [List.foldl_cons, hstep]
    have hrb : r = (bid, bdist) := by
      have := hfold.symm.trans h
      rw [hr] at this
      exact (Option.some_inj.mp this.symm).symm
    constructor
    · intro kt2 hmem
      rcases List.mem_cons.mp hmem with h2 | h2
      · rw [h2]
        have := hrle
        rw [hrb] at this
        exact this
      · have := hrall kt2 h2
        rw [hrb] at this
        exact this
    · rcases hror with heq | ⟨kt2, hkt2, heq⟩
      · have h3 : (kt.1, dist2 kt.2.state d) = (bid, bdist) := heq.symm.trans hrb
        exact ⟨kt, List.mem_cons_self _ _, (Prod.mk.injEq _ _ _ _ ▸ h3).1,
          (Prod.mk.injEq _ _ _ _ ▸ h3).2⟩
      · have h3 : (kt2.1, dist2 kt2.2.state d) = (bid, bdist) := heq.symm.trans hrb
        exact ⟨kt2, List.mem_cons_of_mem _ hkt2, (Prod.mk.injEq _ _ _ _ ▸ h3).1,
          (Prod.mk.injEq _ _ _ _ ▸ h3).2⟩

/-- C7 (amended): with existing tracks, `update` creates a new track exactly
when the nearest distance is at least 1000 (the code gates on
`dist < 1000`, so distance exactly 1000 also creates); otherwise the nearest
track receives the linear Kalman correction `y = z - H·state`,
`S = H P Hᵀ + R`, `K = P Hᵀ S⁻¹`, `state += K y`, `P = (I - K H) P` with
`R = 10·I`. -/
theorem tracker_update_gating (t : TargetTracker) (d : ℝ × ℝ) (bid : ℕ)
    (bdist : ℝ) (h : findNearest t.tracks d = some (bid, bdist))
    (hfresh : t.next_id ∉ trackIds t) :
    (∀ kt ∈ t.tracks, bdist ≤ dist2 kt.2.state d) ∧
    (1000 ≤ bdist →
      (updateOne t d).tracks = t.tracks ++ [(t.next_id, newTrack t.next_id d)] ∧
      (updateOne t d).next_id = t.next_id + 1) ∧
    (bdist < 1000 →
      (updateOne t d).tracks =
        t.tracks.map (fun p => if p.1 = bid then (p.1, kalmanCorrect p.2 d) else p) ∧
      (updateOne t d).next_id = t.next_id) ∧
    (∀ tr : Track,
      (kalmanCorrect tr d).state = tr.state +
        (tr.P * Hmat.transpose *
          (Hmat * tr.P * Hmat.transpose +
            (10 : ℝ) • (1 : Matrix (Fin 2) (Fin 2) ℝ))⁻¹).mulVec
          (![d.1, d.2] - Hmat.mulVec tr.state) ∧
      (kalmanCorrect tr d).P =
        ((1 : Matrix (Fin 4) (Fin 4) ℝ) -
          (tr.P * Hmat.transpose *
            (Hmat * tr.P * Hmat.transpose +
              (10 : ℝ) • (1 : Matrix (Fin 2) (Fin 2) ℝ))⁻¹) * Hmat) * tr.P) := by
  have hne : t.tracks ≠ [] := by
    intro hnil
    rw [hnil] at h
    simp [findNearest] at h
  have hempty : t.tracks.isEmpty = false := by
    simpa [List.isEmpty_iff] using hne
  have hfresh2 : t.next_id ∉ List.map Prod.fst t.tracks := by
    simpa [trackIds] using hfresh
  have happend : dictInsert t.tracks t.next_id (newTrack t.next_id d) =
      t.tracks ++ [(t.next_id, newTrack t.next_id d)] := by
    unfold dictInsert
    rw [if_neg hfresh2]
  have hk : ∀ tr : Track,
      (kalmanCorrect tr d).state = tr.state +
        (tr.P * Hmat.transpose *
          (Hmat * tr.P * Hmat.transpose +
            (10 : ℝ) • (1 : Matrix (Fin 2) (Fin 2) ℝ))⁻¹).mulVec
          (![d.1, d.2] - Hmat.mulVec tr.state) ∧
      (kalmanCorrect tr d).P =
        ((1 : Matrix (Fin 4) (Fin 4) ℝ) -
          (tr.P * Hmat.transpose *
            (Hmat * tr.P * Hmat.transpose +
              (10 : ℝ) • (1 : Matrix (Fin 2) (Fin 2) ℝ))⁻¹) * Hmat) * tr.P :=
    fun tr => ⟨rfl, rfl⟩
  refine ⟨(findNearest_spec t.tracks d bid bdist h).1, fun hge => ?_, fun hlt => ?_, hk⟩
  · unfold updateOne
    rw [if_neg (by simp [hempty]), h]
    dsimp only
    rw [if_neg (not_lt.mpr hge)]
    exact ⟨happend, rfl⟩
  · unfold updateOne
    rw [if_neg (by simp [hempty]), h]
    dsimp only
    rw [if_pos hlt]
    exact ⟨rfl, rfl⟩

/-- C7 counterexample: at nearest distance exactly 1000 — which does not
exceed the 1000-unit gate — the code still creates a second track instead of
correcting the nearest one. -/
theorem tracker_gating_boundary_counterexample :
    ¬ ((1000 : ℝ) > 1000) ∧
    dist2 (![0, 0, 0, 0]) ((1000 : ℝ), 0) = 1000 ∧
    (updateOne ⟨[(1, ⟨1, ![0, 0, 0, 0], 1⟩)], 2⟩ ((1000 : ℝ), 0)).tracks.length = 2 := by
  have hdist : dist2 (![0, 0, 0, 0] : Fin 4 → ℝ) ((1000 : ℝ), 0) = 1000 := by
    unfold dist2
    rw [show ((![0, 0, 0, 0] : Fin 4 → ℝ) 0 - (1000 : ℝ)) ^ 2 +
        ((![0, 0, 0, 0] : Fin 4 → ℝ) 1 - (0 : ℝ)) ^ 2 = 1000 ^ 2 by
      norm_num [Matrix.cons_val_zero, Matrix.cons_val_one]]
    rw [Real.sqrt_sq (by norm_num : (0 : ℝ) ≤ 1000)]
  refine ⟨by norm_num, hdist, ?_⟩
  have hfn : findNearest [(1, (⟨1, ![0, 0, 0, 0], 1⟩ : Track))] ((1000 : ℝ), 0) =
      some (1, 1000) := by
    unfold findNearest
    rw [List.foldl_cons, show stepBest ((1000 : ℝ), 0) none
      (1, (⟨1, ![0, 0, 0, 0], 1⟩ : Track)) =
      some (1, dist2 (![0, 0, 0, 0]) ((1000 : ℝ), 0)) from rfl, hdist]
    rfl
  unfold updateOne
  rw [if_neg (by simp), hfn]
  dsimp only
  rw [if_neg (by norm_num : ¬ (1000 : ℝ) < 1000)]
  simp [dictInsert]

/-- C7 witness: an in-gate detection at distance 5 corrects the single
existing track in place and leaves `next_id` unchanged. -/
theorem tracker_update_gating_witness :
    (updateOne ⟨[(1, ⟨1, ![0, 0, 0, 0], 1⟩)], 2⟩ ((3 : ℝ), 4)).tracks =
      [(1, kalmanCorrect ⟨1, ![0, 0, 0, 0], 1⟩ ((3 : ℝ), 4))] ∧
    (updateOne ⟨[(1, ⟨1, ![0, 0, 0, 0], 1⟩)], 2⟩ ((3 : ℝ), 4)).next_id = 2 := by
  have hdist : dist2 (![0, 0, 0, 0] : Fin 4 → ℝ) ((3 : ℝ), 4) = 5 := by
    unfold dist2
    rw [show ((![0, 0, 0, 0] : Fin 4 → ℝ) 0 - (3 : ℝ)) ^ 2 +
        ((![0, 0, 0, 0] : Fin 4 → ℝ) 1 - (4 : ℝ)) ^ 2 = 5 ^ 2 by
      norm_num [Matrix.cons_val_zero, Matrix.cons_val_one]]
    rw [Real.sqrt_sq (by norm_num : (0 : ℝ) ≤ 5)]
  have hfn : findNearest [(1, (⟨1, ![0, 0, 0, 0], 1⟩ : Track))] ((3 : ℝ), 4) =
      some (1, 5) := by
    unfold findNearest
    rw [List.foldl_cons, show stepBest ((3 : ℝ), 4) none
      (1, (⟨1, ![0, 0, 0, 0], 1⟩ : Track)) =
      some (1, dist2 (![0, 0, 0, 0]) ((3 : ℝ), 4)) from rfl, hdist]
    rfl
  have hg := tracker_update_gating ⟨[(1, ⟨1, ![0, 0, 0, 0], 1⟩)], 2⟩ ((3 : ℝ), 4)
    1 5 hfn (by decide)
  have hb := hg.2.2.1 (by norm_num)
  refine ⟨?_, hb.2⟩
  rw [hb.1]
  simp

/-- Mapping a first-component-preserving function over the dictionary leaves
the key list unchanged. -/
theorem map_fst_if (l : List (ℕ × Track)) (f : ℕ × Track → ℕ × Track)
    (h : ∀ p, (f p).1 = p.1) :
    (l.map f).map Prod.fst = l.map Prod.fst := by
  induction l with
  | nil => rfl
  | cons p l ih => simp only [List.map_cons, ih, h p]

/-- Overwriting an existing key leaves the key list unchanged. -/
theorem dictInsert_ids_mem (l : List (ℕ × Track)) (k : ℕ) (v : Track)
    (h : k ∈ l.map Prod.fst) :
    (dictInsert l k v).map Prod.fst = l.map Prod.fst := by
  unfold dictInsert
  rw [if_pos h]
  exact map_fst_if l _ (fun p => by by_cases hp : p.1 = k <;> simp [hp])

/-- Inserting a fresh key appends it to the key list. -/
theorem dictInsert_ids_fresh (l : List (ℕ × Track)) (k : ℕ) (v : Track)
    (h : k ∉ l.map Prod.fst) :
    (dictInsert l k v).map Prod.fst = l.map Prod.fst ++ [k] := by
  unfold dictInsert
  rw [if_neg h]
  simp

/-- Dict assignment never shrinks the dictionary. -/
theorem dictInsert_length (l : List (ℕ × Track)) (k : ℕ) (v : Track) :
    l.length ≤ (dictInsert l k v).length := by
  unfold dictInsert
  split_ifs with h
  · simp
  · simp

/-- Dict assignment preserves every existing key. -/
theorem dictInsert_ids_superset (l : List (ℕ × Track)) (k : ℕ) (v : Track) :
    ∀ j ∈ l.map Prod.fst, j ∈ (dictInsert l k v).map Prod.fst := by
  intro j hj
  by_cases h : k ∈ l.map Prod.fst
  · rw [dictInsert_ids_mem l k v h]
    exact hj
  · rw [dictInsert_ids_fresh l k v h]
    exact List.mem_append_left _ hj

/-- `updateOne` either inserts a fresh track under `next_id` and bumps
`next_id`, or corrects one track in place, touching neither keys nor
`next_id`. -/
theorem updateOne_cases (t : TargetTracker) (d : ℝ × ℝ) :
    updateOne t d =
      ⟨dictInsert t.tracks t.next_id (newTrack t.next_id d), t.next_id + 1⟩ ∨
    ∃ bid, updateOne t d =
      ⟨t.tracks.map (fun p => if p.1 = bid then (p.1, kalmanCorrect p.2 d) else p),
        t.next_id⟩ := by
  unfold updateOne
  by_cases hE : t.tracks.isEmpty = true
  · rw [if_pos hE]
    exact Or.inl rfl
  · rw [if_neg hE]
    cases hfn : findNearest t.tracks d with
    | none =>
      exact Or.inl rfl
    | some b =>
      dsimp only
      by_cases hlt : b.2 < 1000
      · rw [if_pos hlt]
        exact Or.inr ⟨b.1, rfl⟩
      · rw [if_neg hlt]
        exact Or.inl rfl

/-- `updateOne` preserves every existing track id. -/
theorem updateOne_ids_superset (t : TargetTracker) (d : ℝ × ℝ) :
    ∀ k ∈ trackIds t, k ∈ trackIds (updateOne t d) := by
  intro k hk
  rcases updateOne_cases t d with hc | ⟨bid, hc⟩
  · rw [hc]
    exact dictInsert_ids_superset _ _ _ k hk
  · rw [hc]
    show k ∈ (t.tracks.map _).map Prod.fst
    rw [map_fst_if t.tracks _ (fun p => by by_cases hp : p.1 = bid <;> simp [hp])]
    exact hk

/-- `updateOne` never decreases the number of tracks. -/
theorem updateOne_length (t : TargetTracker) (d : ℝ × ℝ) :
    t.tracks.length ≤ (updateOne t d).tracks.length := by
  rcases updateOne_cases t d with hc | ⟨bid, hc⟩
  · rw [hc]
    exact dictInsert_length _ _ _
  · rw [hc]
    simp

/-- `updateOne` never decreases `next_id`. -/
theorem updateOne_next_le (t : TargetTracker) (d : ℝ × ℝ) :
    t.next_id ≤ (updateOne t d).next_id := by
  rcases updateOne_cases t d with hc | ⟨bid, hc⟩
  · rw [hc]
    exact Nat.le_succ _
  · rw [hc]

/-- `updateOne` preserves well-formedness: every stored track's `id` field
equals its dictionary key. -/
theorem updateOne_wf (t : TargetTracker) (d : ℝ × ℝ)
    (hwf : ∀ p ∈ t.tracks, p.2.id = p.1) :
    ∀ p ∈ (updateOne t d).tracks, p.2.id = p.1 := by
  rcases updateOne_cases t d with hc | ⟨bid, hc⟩
  · rw [hc]
    show ∀ p ∈ dictInsert t.tracks t.next_id (newTrack t.next_id d), p.2.id = p.1
    unfold dictInsert
    split_ifs with hmem
    · intro p hp
      obtain ⟨q, hq, rfl⟩ := List.mem_map.mp hp
      by_cases hq1 : q.1 = t.next_id
      · rw [if_pos hq1]
        rfl
      · rw [if_neg hq1]
        exact hwf q hq
    · intro p hp
      rcases List.mem_append.mp hp with h | h
      · exact hwf p h
      · simp only [List.mem_singleton] at h
        rw [h]
        rfl
  · rw [hc]
    intro p hp
    obtain ⟨q, hq, rfl⟩ := List.mem_map.mp hp
    by_cases hq1 : q.1 = bid
    · rw [if_pos hq1]
      show (kalmanCorrect q.2 d).id = q.1
      rw [show (kalmanCorrect q.2 d).id = q.2.id from rfl]
      exact hwf q hq
    · rw [if_neg hq1]
      exact hwf q hq

/-- `predict` leaves the key list unchanged. -/
theorem trackIds_predict (t : TargetTracker) (dt : ℝ) :
    trackIds (t.predict dt) = trackIds t := by
  show (t.tracks.map _).map Prod.fst = t.tracks.map Prod.fst
  exact map_fst_if t.tracks _ (fun p => rfl)

/-- `updateOne` preserves the tracker invariant, and any id it introduces
dominates every id already present. -/
theorem goodTracker_updateOne (t : TargetTracker) (d : ℝ × ℝ)
    (hg : goodTracker t) :
    goodTracker (updateOne t d) ∧
    (∀ k ∈ trackIds (updateOne t d), k ∉ trackIds t → ∀ j ∈ trackIds t, j < k) := by
  have hfresh : t.next_id ∉ trackIds t := fun hmem => lt_irrefl _ (hg.2 _ hmem)
  rcases updateOne_cases t d with hc | ⟨bid, hc⟩
  · have hids : trackIds (updateOne t d) = trackIds t ++ [t.next_id] := by
      rw [hc]
      exact dictInsert_ids_fresh t.tracks t.next_id _ (by simpa [trackIds] using hfresh)
    have hnext : (updateOne t d).next_id = t.next_id + 1 := by rw [hc]
    refine ⟨⟨?_, ?_⟩, ?_⟩
    · rw [hids]
      show List.Pairwise (· < ·) (trackIds t ++ [t.next_id])
      rw [List.pairwise_append]
      refine ⟨hg.1, List.sorted_singleton _, fun a ha b hb => ?_⟩
      rw [List.mem_singleton] at hb
      rw [hb]
      exact hg.2 a ha
    · rw [hids, hnext]
      intro k hk
      rcases List.mem_append.mp hk with h | h
      · exact Nat.lt_succ_of_lt (hg.2 k h)
      · rw [List.mem_singleton] at h
        rw [h]
        exact Nat.lt_succ_self _
    · intro k hk hknot
      rw [hids] at hk
      rcases List.mem_append.mp hk with h | h
      · exact absurd h hknot
      · rw [List.mem_singleton] at h
        intro j hj
        rw [h]
        exact hg.2 j hj
  · have hids : trackIds (updateOne t d) = trackIds t := by
      rw [hc]
      show (t.tracks.map _).map Prod.fst = _
      exact map_fst_if t.tracks _ (fun p => by by_cases hp : p.1 = bid <;> simp [hp])
    refine ⟨⟨?_, ?_⟩, ?_⟩
    · rw [hids]
      exact hg.1
    · rw [hids]
      have hnext : (updateOne t d).next_id = t.next_id := by rw [hc]
      rw [hnext]
      exact hg.2
    · intro k hk hknot
      rw [hids] at hk
      exact absurd hk hknot

/-- `update` preserves the tracker invariant, keeps every id, and any id it
introduces dominates every id already present. -/
theorem goodTracker_update (t : TargetTracker) (dets : List (ℝ × ℝ))
    (hg : goodTracker t) :
    goodTracker (t.update dets) ∧
    (∀ k ∈ trackIds t, k ∈ trackIds (t.update dets)) ∧
    (∀ k ∈ trackIds (t.update dets), k ∉ trackIds t → ∀ j ∈ trackIds t, j < k) := by
  induction dets generalizing t with
  | nil => exact ⟨hg, fun k hk => hk, fun k hk hknot => absurd hk hknot⟩
  | cons d dets ih =>
    have h1 := goodTracker_updateOne t d hg
    have hsub1 := updateOne_ids_superset t d
    obtain ⟨hg2, hsub2, hnew2⟩ := ih (updateOne t d) h1.1
    refine ⟨hg2, fun k hk => hsub2 k (hsub1 k hk), ?_⟩
    intro k hk hknot
    by_cases hk1 : k ∈ trackIds (updateOne t d)
    · exact h1.2 k hk1 hknot
    · intro j hj
      exact hnew2 k hk hk1 j (hsub1 j hj)

/-- `predict` preserves the tracker invariant and all ids. -/
theorem goodTracker_predict (t : TargetTracker) (dt : ℝ) (hg : goodTracker t) :
    goodTracker (t.predict dt) ∧
    (∀ k ∈ trackIds t, k ∈ trackIds (t.predict dt)) ∧
    (∀ k ∈ trackIds (t.predict dt), k ∉ trackIds t → ∀ j ∈ trackIds t, j < k) := by
  have hids := trackIds_predict t dt
  refine ⟨⟨by rw [hids]; exact hg.1, ?_⟩, fun k hk => by rw [hids]; exact hk,
    fun k hk hknot => absurd (by rw [hids] at hk; exact hk) hknot⟩
  rw [hids]
  exact hg.2

/-- Any single tracker operation preserves the invariant, keeps every id,
and only introduces dominating ids. -/
theorem goodTracker_applyOp (t : TargetTracker) (op : TrackerOp)
    (hg : goodTracker t) :
    goodTracker (applyOp t op) ∧
    (∀ k ∈ trackIds t, k ∈ trackIds (applyOp t op)) ∧
    (∀ k ∈ trackIds (applyOp t op), k ∉ trackIds t → ∀ j ∈ trackIds t, j < k) := by
  cases op with
  | predictOp dt => exact goodTracker_predict t dt hg
  | updateOp dets => exact goodTracker_update t dets hg

/-- Any sequence of tracker operations preserves the invariant. -/
theorem goodTracker_runOps (ops : List TrackerOp) :
    ∀ t : TargetTracker, goodTracker t → goodTracker (runOps t ops) := by
  induction ops with
  | nil => exact fun t hg => hg
  | cons op ops ih => exact fun t hg => ih (applyOp t op) (goodTracker_applyOp t op hg).1

/-- The fresh tracker satisfies the invariant. -/
theorem goodTracker_init : goodTracker TargetTracker.init :=
  ⟨List.sorted_nil, by simp [trackIds, TargetTracker.init]⟩

/-- C8: along every sequence of `predict`/`update` calls from the fresh
tracker, the id list stays strictly increasing in insertion order (hence no
id is ever reused), every id survives each further operation, and every id a
further operation introduces is strictly greater than all ids assigned
before it. -/
theorem tracker_ids_strictly_increasing (ops : List TrackerOp) (op : TrackerOp) :
    List.Sorted (· < ·) (trackIds (runOps TargetTracker.init ops)) ∧
    List.Sorted (· < ·) (trackIds (applyOp (runOps TargetTracker.init ops) op)) ∧
    (∀ k ∈ trackIds (runOps TargetTracker.init ops),
      k ∈ trackIds (applyOp (runOps TargetTracker.init ops) op)) ∧
    (∀ k ∈ trackIds (applyOp (runOps TargetTracker.init ops) op),
      k ∉ trackIds (runOps TargetTracker.init ops) →
      ∀ j ∈ trackIds (runOps TargetTracker.init ops), j < k) := by
  have hg := goodTracker_runOps ops TargetTracker.init goodTracker_init
  have h2 := goodTracker_applyOp _ op hg
  exact ⟨hg.1, h2.1.1, h2.2.1, h2.2.2⟩

/-- C8 witness: one update creates id 1; a far-away detection in the next
update creates id 2, and `[1, 2]` is strictly sorted. -/
theorem tracker_ids_strictly_increasing_witness :
    trackIds (runOps TargetTracker.init
      [TrackerOp.updateOp [((0 : ℝ), (0 : ℝ))]]) = [1] ∧
    List.Sorted (· < ·) (trackIds (applyOp (runOps TargetTracker.init
      [TrackerOp.updateOp [((0 : ℝ), (0 : ℝ))]])
      (TrackerOp.updateOp [((2000 : ℝ), (0 : ℝ))]))) := by
  constructor
  · simp [runOps, applyOp, TargetTracker.update, TargetTracker.init, updateOne,
      dictInsert, trackIds, newTrack]
  · exact (tracker_ids_strictly_increasing
      [TrackerOp.updateOp [((0 : ℝ), (0 : ℝ))]]
      (TrackerOp.updateOp [((2000 : ℝ), (0 : ℝ))])).2.1

/-- `update` keeps every existing id. -/
theorem update_ids_superset (t : TargetTracker) (dets : List (ℝ × ℝ)) :
    ∀ k ∈ trackIds t, k ∈ trackIds (t.update dets) := by
  induction dets generalizing t with
  | nil => exact fun k hk => hk
  | cons d dets ih =>
    exact fun k hk => ih (updateOne t d) k (updateOne_ids_superset t d k hk)

/-- `update` never decreases the number of tracks. -/
theorem update_length (t : TargetTracker) (dets : List (ℝ × ℝ)) :
    t.tracks.length ≤ (t.update dets).tracks.length := by
  induction dets generalizing t with
  | nil => exact le_refl _
  | cons d dets ih => exact le_trans (updateOne_length t d) (ih (updateOne t d))

/-- `update` preserves well-formedness of the id fields. -/
theorem update_wf (t : TargetTracker) (dets : List (ℝ × ℝ))
    (hwf : ∀ p ∈ t.tracks, p.2.id = p.1) :
    ∀ p ∈ (t.update dets).tracks, p.2.id = p.1 := by
  induction dets generalizing t with
  | nil => exact hwf
  | cons d dets ih => exact ih (updateOne t d) (updateOne_wf t d hwf)

/-- `predict` keeps each track under its key with its id field unchanged. -/
theorem predict_tracks_id (t : TargetTracker) (dt : ℝ) :
    ∀ p ∈ t.tracks, ∃ tr, (p.1, tr) ∈ (t.predict dt).tracks ∧ tr.id = p.2.id := by
  intro p hp
  exact ⟨_, List.mem_map_of_mem _ hp, rfl⟩

/-- C10: neither `predict` nor `update` ever removes a track or changes the
id of an existing track — `predict` leaves the key list unchanged and keeps
every track's id field, and `update` preserves every existing id, never
decreases the track count, and keeps each stored track's id field equal to
its key. -/
theorem tracker_ops_preserve_tracks (t : TargetTracker) (dt : ℝ)
    (dets : List (ℝ × ℝ)) :
    trackIds (t.predict dt) = trackIds t ∧
    (∀ p ∈ t.tracks, ∃ tr, (p.1, tr) ∈ (t.predict dt).tracks ∧ tr.id = p.2.id) ∧
    (∀ k ∈ trackIds t, k ∈ trackIds (t.update dets)) ∧
    t.tracks.length ≤ (t.update dets).tracks.length ∧
    ((∀ p ∈ t.tracks, p.2.id = p.1) →
      ∀ p ∈ (t.update dets).tracks, p.2.id = p.1) :=
  ⟨trackIds_predict t dt, predict_tracks_id t dt, update_ids_superset t dets,
    update_length t dets, update_wf t dets⟩

/-- C10 witness: on a one-track tracker, `predict` keeps the key list and an
out-of-gate update keeps the stored id fields well formed. -/
theorem tracker_ops_preserve_tracks_witness :
    trackIds (TargetTracker.predict ⟨[(1, ⟨1, ![0, 0, 0, 0], 1⟩)], 2⟩ 1) =
      trackIds ⟨[(1, ⟨1, ![0, 0, 0, 0], 1⟩)], 2⟩ ∧
    (∀ p ∈ (TargetTracker.update ⟨[(1, ⟨1, ![0, 0, 0, 0], 1⟩)], 2⟩
      [((2000 : ℝ), (0 : ℝ))]).tracks, p.2.id = p.1) := by
  have h := tracker_ops_preserve_tracks ⟨[(1, ⟨1, ![0, 0, 0, 0], 1⟩)], 2⟩ 1
    [((2000 : ℝ), (0 : ℝ))]
  exact ⟨h.1, h.2.2.2.2 (by simp)⟩

end Sonar
